import Mathlib

/-!
# Verification of the OCPA workbench case-analytics core

Shallow embedding of `src/app/models.py`: the `Event`/`Trace`/`Variant` data
model, the `Cases` index built by `Cases.reload`, the lookup operations
`get_traces_by_variant` / `get_objects_by_variant`, and the directly-follows
graph renderer `Trace.directly_follows_graph`.

Modelling conventions:

* Python dictionaries are insertion-ordered association lists
  `List (α × β)` with unique keys; `dget?` is a read, `dmodify` is the
  defaultdict pattern `d[k] = f(d.get(k, default))` (new keys appended at
  the end, as CPython does), `dset` is `d[k] = v`, and `daccess` is a
  defaultdict `__getitem__` which inserts the default when the key is
  missing (the side effect needed to model `Cases.get_traces_by_variant`).
* Python `hash` values are modelled by the hashed content itself
  (hash collisions are abstracted away): `get_trace_hash` returns the list
  of activity names and `get_case_hash` the list of
  (activity, frozenset of (object-type, id-tuple)) pairs, the frozenset
  modelled as a `Finset`.
* A Python `set` of traces (keyed by case hash through
  `Trace.__hash__`/`__eq__`) is an insertion-ordered list deduplicated by
  `get_case_hash` (`setInsert`); `list(s)[0]` is the first inserted element
  (`List.headI`), one definite choice among the unspecified CPython set orders.
* `reload` is modelled from the point where `_dataframe_to_events` has
  produced the timestamp-sorted event list: it takes a `List Event`.
  Percentages are exact rationals (`ℚ`) in place of Python floats.
* The key-indexing `event.objects[object_type]` in
  `get_objects_by_variant` can raise `KeyError` in Python, so the model
  returns an `Option`, `none` standing for the raised exception.
-/

namespace App

abbrev ObjType := String
abbrev ObjId := String

/-- The `Event` dataclass: activity, timestamp, and the mapping from object type
to the list of referenced object ids (a Python dict, insertion ordered). -/
structure Event where
  activity : String
  timestamp : Int
  objects : List (ObjType × List ObjId)
  deriving DecidableEq, Inhabited

/-- A `Trace` is a list of events (the class extends `list`). -/
abbrev Trace := List Event

/- ### Association-list model of Python dicts -/

/-- Dict read `d.get(k)`: the value at the first matching key. -/
def dget? [DecidableEq α] : List (α × β) → α → Option β
  | [], _ => none
  | (k', v) :: rest, k => if k = k' then some v else dget? rest k

/-- Dict write `d[k] = v`: update the first matching key in place, else
append at the end. -/
def dset [DecidableEq α] : List (α × β) → α → β → List (α × β)
  | [], k, v => [(k, v)]
  | (k', v') :: rest, k, v =>
      if k = k' then (k, v) :: rest else (k', v') :: dset rest k v

/-- The defaultdict update pattern `d[k] = f(d.get(k, dflt))`: new keys are
appended at the end, existing keys are updated in place. -/
def dmodify [DecidableEq α] : List (α × β) → α → β → (β → β) → List (α × β)
  | [], k, dflt, f => [(k, f dflt)]
  | (k', v') :: rest, k, dflt, f =>
      if k = k' then (k, f v') :: rest else (k', v') :: dmodify rest k dflt f

/-- defaultdict `__getitem__`: returns the stored value, or inserts and
returns the default when the key is missing.  The second component is the
dict after the access. -/
def daccess [DecidableEq α] (d : List (α × β)) (k : α) (dflt : β) :
    β × List (α × β) :=
  match dget? d k with
  | some v => (v, d)
  | none => (dflt, d ++ [(k, dflt)])

/- ### Trace hashing (`Trace.get_trace_hash` / `Trace.get_case_hash`) -/

/-- Model of `get_trace_hash`: the ordered tuple of activity names. -/
def get_trace_hash (t : Trace) : List String :=
  t.map (·.activity)

/-- Model of `get_case_hash`: the ordered tuple of
`(activity, frozenset((k, tuple(v)) for k, v in objects.items()))` pairs. -/
def get_case_hash (t : Trace) : List (String × Finset (ObjType × List ObjId)) :=
  t.map (fun e => (e.activity, e.objects.toFinset))

/-- Python `set.add` on a set of traces: membership is decided by
`get_case_hash` equality (`Trace.__eq__`/`__hash__`); a new element is
recorded after the existing ones. -/
def setInsert (b : List Trace) (t : Trace) : List Trace :=
  if get_case_hash t ∈ b.map get_case_hash then b else b ++ [t]

/- ### Variant -/

/-- The `Variant` dataclass; `percentage` is an exact rational in the model. -/
structure Variant where
  trace : Trace
  percentage : ℚ
  count : ℕ
  deriving DecidableEq

/- ### The Cases index -/

/-- Derived state of the `Cases` class after `reload`:
`cases_by_object : type → (object id → Trace)`,
`variant_count : type → (trace hash → set of Trace)` (the internal
`_variant_count`, i.e. the variant-groups map),
`variants : type → list of Variant`, and the global id set `objects`. -/
structure Cases where
  cases_by_object : List (ObjType × List (ObjId × Trace))
  variant_count : List (ObjType × List (List String × List Trace))
  variants : List (ObjType × List Variant)
  objects : Finset ObjId
  deriving DecidableEq

/-- One `self.cases_by_object[object_type][value].append(event)` step. -/
def cboAdd (cbo : List (ObjType × List (ObjId × Trace))) (ty : ObjType)
    (oid : ObjId) (e : Event) : List (ObjType × List (ObjId × Trace)) :=
  dmodify cbo ty [] (fun inner => dmodify inner oid [] (fun tr => tr ++ [e]))

/-- The body of the first `reload` loop for a single event: iterate over
`event.objects.items()` and over each id list. -/
def addEvent (cbo : List (ObjType × List (ObjId × Trace))) (e : Event) :
    List (ObjType × List (ObjId × Trace)) :=
  e.objects.foldl
    (fun cbo p => p.2.foldl (fun cbo oid => cboAdd cbo p.1 oid e) cbo) cbo

/-- The first `reload` loop: build `cases_by_object` from the event list. -/
def buildCBO (events : List Event) : List (ObjType × List (ObjId × Trace)) :=
  events.foldl addEvent []

/-- One step `self._variant_count[object_type][value.get_trace_hash()].add(value)`
restricted to the groups map of one object type. -/
def groupStep (g : List (List String × List Trace)) (t : Trace) :
    List (List String × List Trace) :=
  dmodify g (get_trace_hash t) [] (fun b => setInsert b t)

/-- One `.add` into the nested `_variant_count` defaultdict. -/
def vcAdd (vc : List (ObjType × List (List String × List Trace)))
    (ty : ObjType) (t : Trace) :
    List (ObjType × List (List String × List Trace)) :=
  dmodify vc ty [] (fun g => groupStep g t)

/-- The second `reload` loop: bucket every trace of `cases_by_object` by
trace hash, deduplicating by case hash inside each bucket. -/
def buildVC (cbo : List (ObjType × List (ObjId × Trace))) :
    List (ObjType × List (List String × List Trace)) :=
  cbo.foldl (fun vc p => p.2.foldl (fun vc q => vcAdd vc p.1 q.2) vc) []

/-- The inner body of the third `reload` loop for one object type:
`total = sum(len(variant) for variant in type_variants.values())` and one
`Variant(trace=list(value)[0], percentage=len(value)/total,
count=len(value))` per bucket. -/
def mkVariants (g : List (List String × List Trace)) : List Variant :=
  let total : ℕ := (g.map (fun q => q.2.length)).sum
  g.map (fun q => ⟨q.2.headI, (q.2.length : ℚ) / (total : ℚ), q.2.length⟩)

/-- The third `reload` loop over `_variant_count.items()`. -/
def buildVariants (vc : List (ObjType × List (List String × List Trace))) :
    List (ObjType × List Variant) :=
  vc.map (fun p => (p.1, mkVariants p.2))

/-- The set `self._objects` accumulated over the first loop. -/
def collectObjects (events : List Event) : Finset ObjId :=
  events.foldl
    (fun s e => e.objects.foldl
      (fun s p => p.2.foldl (fun s oid => insert oid s) s) s) ∅

/-- Model of `Cases.reload`, starting from the timestamp-ordered event list produced
by `_dataframe_to_events`. -/
def Cases.reload (events : List Event) : Cases :=
  { cases_by_object := buildCBO events
    variant_count := buildVC (buildCBO events)
    variants := buildVariants (buildVC (buildCBO events))
    objects := collectObjects events }

/-- Model of `Cases.get_traces_by_variant`:
`list(self._variant_count[object_type][variant.trace.get_trace_hash()])`.
Both subscripts are defaultdict accesses, so the call returns the updated
index as well (the inserted defaults are visible afterwards). -/
def Cases.get_traces_by_variant (c : Cases) (object_type : ObjType)
    (v : Variant) : List Trace × Cases :=
  let h := get_trace_hash v.trace
  let r1 := daccess c.variant_count object_type []
  let r2 := daccess r1.1 h []
  (r2.1, { c with variant_count := dset r1.2 object_type r2.2 })

/-- Model of `Cases.get_objects_by_variant`: union the `event.objects[object_type]`
id lists over every trace of the matching bucket of every object type.
The bare `event.objects[object_type]` indexing raises `KeyError` when the
key is missing, modelled by `none`. -/
def Cases.get_objects_by_variant (c : Cases) (v : Variant) :
    Option (List (ObjType × Finset ObjId)) :=
  let h := get_trace_hash v.trace
  c.variant_count.foldlM
    (fun acc p =>
      ((dget? p.2 h).getD []).foldlM
        (fun acc t =>
          t.foldlM
            (fun acc e =>
              match dget? e.objects p.1 with
              | none => none
              | some ids =>
                  some (dmodify acc p.1 ∅ (fun s => s ∪ ids.toFinset)))
            acc)
        acc)
    []

/- ### Directly-follows graph rendering -/

/-- One Graphviz node statement, the template
`    "{id}" [label="{label}", shape=rect];` shared by both branches of
`directly_follows_graph`. -/
def nodeStmt (id label : String) : String :=
  "    \"" ++ id ++ "\" [label=\"" ++ label ++ "\", shape=rect];"

/-- Python `str` of a list of strings, as rendered into an f-string:
a bracketed comma-separated quoted list. -/
def pyStrList (l : List String) : String :=
  "[" ++ String.intercalate ", " (l.map (fun s => "\x27" ++ s ++ "\x27")) ++ "]"

/-- The optional edge label: a comma-joined list of `"{key}: {value}"`
descriptions of the objects of the target event. -/
def edgeLabel (e : Event) : String :=
  " [label=\"" ++
    String.intercalate ", "
      (e.objects.map (fun p => p.1 ++ ": " ++ pyStrList p.2)) ++ "\"]"

/-- One Graphviz edge statement
`    "{source_id}" -> "{target_id}"{label};`. -/
def edgeStmt (source_id target_id label : String) : String :=
  "    \"" ++ source_id ++ "\" -> \"" ++ target_id ++ "\"" ++ label ++ ";"

/-- Python `set.add` on strings: insertion-ordered deduplicated list. -/
def addUnique (l : List String) (s : String) : List String :=
  if s ∈ l then l else l ++ [s]

/-- The node set of the multi-event branch: one statement per enumerated
event, id `{activity}_{i}`, label the bare activity. -/
def dfgNodeLines (events : List Event) : List String :=
  events.enum.foldl
    (fun acc p =>
      addUnique acc (nodeStmt (p.2.activity ++ "_" ++ toString p.1) p.2.activity))
    []

/-- The edge set of the multi-event branch: one statement per consecutive
index pair `i → i+1`. -/
def dfgEdgeLines (events : List Event) (include_objects : Bool) : List String :=
  (List.range (events.length - 1)).foldl
    (fun acc i =>
      let src := (events.getD i default).activity ++ "_" ++ toString i
      let tgt := (events.getD (i + 1) default).activity ++ "_" ++ toString (i + 1)
      let label := if include_objects then edgeLabel (events.getD (i + 1) default) else ""
      addUnique acc (edgeStmt src tgt label))
    []

/-- Model of `Trace.directly_follows_graph`: the one-node early return for a
single-event trace, otherwise the node and edge statements joined under the
`digraph G` header (set-iteration order fixed to insertion order). -/
def directly_follows_graph (events : Trace) (include_objects : Bool) : String :=
  if events.length = 1 then
    "digraph G \x7b\n    rankdir=LR;\n    \"" ++ (events.headI).activity ++
      "\" [label=\"" ++ (events.headI).activity ++ "\", shape=rect];\n\x7d"
  else
    "digraph G \x7b\n    rankdir=LR;\n" ++
      String.intercalate "\n" (dfgNodeLines events) ++ "\n" ++
      String.intercalate "\n" (dfgEdgeLines events include_objects) ++ "\n\x7d"

/- ### Lemmas about the dict model -/

theorem dget?_dmodify_self [DecidableEq α] (d : List (α × β)) (k : α)
    (dflt : β) (f : β → β) :
    dget? (dmodify d k dflt f) k = some (f ((dget? d k).getD dflt)) := by
  induction d with
  | nil => simp [dmodify, dget?]
  | cons p rest ih =>
    obtain ⟨k', v'⟩ := p
    by_cases h : k = k'
    · subst h; simp [dmodify, dget?]
    · simp [dmodify, dget?, h, ih]

theorem dget?_dmodify_ne [DecidableEq α] {d : List (α × β)} {k k' : α}
    (h : k' ≠ k) (dflt : β) (f : β → β) :
    dget? (dmodify d k dflt f) k' = dget? d k' := by
  induction d with
  | nil => simp [dmodify, dget?, h]
  | cons p rest ih =>
    obtain ⟨k₀, v₀⟩ := p
    by_cases hk : k = k₀
    · subst hk; simp [dmodify, dget?, h]
    · by_cases hk' : k' = k₀ <;> simp [dmodify, dget?, hk, hk', ih]

theorem keys_dmodify [DecidableEq α] (d : List (α × β)) (k : α)
    (dflt : β) (f : β → β) :
    (dmodify d k dflt f).map Prod.fst =
      if k ∈ d.map Prod.fst then d.map Prod.fst else d.map Prod.fst ++ [k] := by
  induction d with
  | nil => simp [dmodify]
  | cons p rest ih =>
    obtain ⟨k₀, v₀⟩ := p
    by_cases hk : k = k₀
    · subst hk; simp [dmodify]
    · by_cases hm : k ∈ rest.map Prod.fst <;>
        simp [dmodify, hk, Ne.symm hk, hm, ih]

theorem nodup_keys_dmodify [DecidableEq α] {d : List (α × β)}
    (hd : (d.map Prod.fst).Nodup) (k : α) (dflt : β) (f : β → β) :
    ((dmodify d k dflt f).map Prod.fst).Nodup := by
  rw [keys_dmodify]
  by_cases hm : k ∈ d.map Prod.fst
  · simpa [hm] using hd
  · simp [hm, List.nodup_append, hd]

theorem mem_dmodify [DecidableEq α] {d : List (α × β)} {k : α}
    {dflt : β} {f : β → β} {p : α × β} (hp : p ∈ dmodify d k dflt f) :
    p ∈ d ∨ (p.1 = k ∧ p.2 = f ((dget? d k).getD dflt)) := by
  induction d with
  | nil =>
    simp [dmodify] at hp
    right; simp [hp, dget?]
  | cons q rest ih =>
    obtain ⟨k₀, v₀⟩ := q
    by_cases hk : k = k₀
    · subst hk
      simp [dmodify] at hp
      rcases hp with hp | hp
      · right; simp [hp, dget?]
      · left; exact List.mem_cons_of_mem _ hp
    · simp [dmodify, hk] at hp
      rcases hp with hp | hp
      · left; simp [hp]
      · rcases ih hp with h | h
        · left; exact List.mem_cons_of_mem _ h
        · right; simpa [dget?, hk] using h

theorem dmodify_ne_nil [DecidableEq α] (d : List (α × β)) (k : α)
    (dflt : β) (f : β → β) : dmodify d k dflt f ≠ [] := by
  cases d with
  | nil => simp [dmodify]
  | cons p rest =>
    obtain ⟨k₀, v₀⟩ := p
    by_cases hk : k = k₀ <;> simp [dmodify, hk]

theorem dget?_mem [DecidableEq α] {d : List (α × β)} {k : α} {v : β}
    (h : dget? d k = some v) : (k, v) ∈ d := by
  induction d with
  | nil => simp [dget?] at h
  | cons p rest ih =>
    obtain ⟨k₀, v₀⟩ := p
    by_cases hk : k = k₀
    · subst hk
      simp [dget?] at h
      simp [h]
    · simp [dget?, hk] at h
      exact List.mem_cons_of_mem _ (ih h)

theorem isSome_dget?_of_mem [DecidableEq α] {d : List (α × β)} {k : α} {v : β}
    (h : (k, v) ∈ d) : (dget? d k).isSome := by
  induction d with
  | nil => simp at h
  | cons p rest ih =>
    obtain ⟨k₀, v₀⟩ := p
    by_cases hk : k = k₀
    · simp [dget?, hk]
    · simp [dget?, hk]
      rcases List.mem_cons.1 h with h | h
      · exact absurd (congrArg Prod.fst h) hk
      · exact ih h

theorem dget?_eq_of_mem_nodup [DecidableEq α] {d : List (α × β)} {k : α}
    {v : β} (hd : (d.map Prod.fst).Nodup) (h : (k, v) ∈ d) :
    dget? d k = some v := by
  induction d with
  | nil => simp at h
  | cons p rest ih =>
    obtain ⟨k₀, v₀⟩ := p
    rcases List.mem_cons.1 h with heq | hmem
    · cases heq
      simp [dget?]
    · have hk : k ≠ k₀ := by
        intro h'
        have hmm : k ∈ rest.map Prod.fst := List.mem_map_of_mem Prod.fst hmem
        rw [h'] at hmm
        exact (List.nodup_cons.1 hd).1 hmm
      simp [dget?, hk]
      exact ih (List.nodup_cons.1 hd).2 hmem

theorem dget?_dset_self [DecidableEq α] (d : List (α × β)) (k : α) (v : β) :
    dget? (dset d k v) k = some v := by
  induction d with
  | nil => simp [dset, dget?]
  | cons p rest ih =>
    obtain ⟨k₀, v₀⟩ := p
    by_cases hk : k = k₀ <;> simp [dset, dget?, hk, ih]

theorem dget?_append_of_none [DecidableEq α] {d : List (α × β)} {k : α}
    (h : dget? d k = none) (d' : List (α × β)) :
    dget? (d ++ d') k = dget? d' k := by
  induction d with
  | nil => simp
  | cons p rest ih =>
    obtain ⟨k₀, v₀⟩ := p
    by_cases hk : k = k₀
    · simp [dget?, hk] at h
    · simp [dget?, hk] at h ⊢
      exact ih h

theorem dget?_map_snd [DecidableEq α] (d : List (α × β)) (f : β → γ) (k : α) :
    dget? (d.map (fun p => (p.1, f p.2))) k = (dget? d k).map f := by
  induction d with
  | nil => simp [dget?]
  | cons p rest ih =>
    obtain ⟨k₀, v₀⟩ := p
    by_cases hk : k = k₀ <;> simp [dget?, hk, ih]

theorem dmodify_eq_self [DecidableEq α] {d : List (α × β)} {k : α} {b : β}
    (hget : dget? d k = some b) (dflt : β) {f : β → β} (hf : f b = b) :
    dmodify d k dflt f = d := by
  induction d with
  | nil => simp [dget?] at hget
  | cons p rest ih =>
    obtain ⟨k₀, v₀⟩ := p
    by_cases hk : k = k₀
    · subst hk
      simp [dget?] at hget
      subst hget
      simp [dmodify, hf]
    · simp [dget?, hk] at hget
      simp [dmodify, hk, ih hget]

/-- A foldl preserves any invariant preserved by each step. -/
theorem foldl_preserves {f : β → α → β} {P : β → Prop} :
    ∀ (l : List α) (b : β), (∀ acc a, a ∈ l → P acc → P (f acc a)) →
      P b → P (l.foldl f b)
  | [], _, _, hb => hb
  | a :: l, b, h, hb =>
      foldl_preserves l (f b a)
        (fun acc x hx => h acc x (List.mem_cons_of_mem _ hx))
        (h b a (List.mem_cons_self _ _) hb)

/- ### Nested lookup into the variant-groups map -/

/-- Read-only nested lookup `_variant_count[T][h]` (no defaultdict insert):
`none` when the object type or the trace hash is absent. -/
def vcLookup? (vc : List (ObjType × List (List String × List Trace)))
    (T : ObjType) (h : List String) : Option (List Trace) :=
  match dget? vc T with
  | none => none
  | some g => dget? g h

/-- The list returned by `get_traces_by_variant` is exactly the bucket the
read-only nested lookup finds, or empty when type or hash is absent. -/
theorem get_traces_by_variant_fst (c : Cases) (T : ObjType) (v : Variant) :
    (c.get_traces_by_variant T v).1 =
      (vcLookup? c.variant_count T (get_trace_hash v.trace)).getD [] := by
  unfold Cases.get_traces_by_variant vcLookup?
  cases hty : dget? c.variant_count T with
  | none => simp [daccess, hty, dget?]
  | some g =>
    cases hh : dget? g (get_trace_hash v.trace) with
    | none => simp [daccess, hty, hh]
    | some b => simp [daccess, hty, hh]

/- ### Demonstration log used by the witnesses -/

/-- One event referencing two object ids of the same type: both traces for
`o1` and `o2` are the same event list, so they collapse under case-hash
deduplication while the raw instance count is 2. -/
def demoE : Event := ⟨"A", 0, [("order", ["o1", "o2"])]⟩

def demoLog : List Event := [demoE]

/-- A variant value whose trace hash matches nothing in `demoLog`. -/
def demoV : Variant := ⟨[], 0, 0⟩

/-- The multiset of (percentage, count) statistics of the variants of one object type, the observable C3 compares across rebuilds. -/
def variantStats (c : Cases) (T : ObjType) : Multiset (ℚ × ℕ) :=
  (((dget? c.variants T).getD []).map (fun v => (v.percentage, v.count)) :
    List (ℚ × ℕ))

/-- Claim C3: rebuilding the Case Index twice from the same log yields, for
every object type, identical multisets of (percentage, count) pairs.  In
the embedding `Cases.reload` is a pure function of the event list (Python
dict iteration is insertion-ordered and hence deterministic, and the
unspecified set-iteration order only influences which representative trace
a `Variant` carries, not its percentage or count), so determinism is by
construction. -/
theorem reload_deterministic (L1 L2 : List Event) (h : L1 = L2)
    (T : ObjType) :
    variantStats (Cases.reload L1) T = variantStats (Cases.reload L2) T := by
  rw [h]

/-- Witness for C3 at the demonstration log. -/
theorem reload_deterministic_witness :
    variantStats (Cases.reload demoLog) "order" =
      variantStats (Cases.reload demoLog) "order" :=
  reload_deterministic demoLog demoLog rfl "order"

/-- Claim C4: two traces with identical activity sequences but differing
attached-objects mappings (the per-event dicts differ as sets of
(type, id-list) pairs, which for dicts with unique keys is exactly mapping
inequality) share their trace hash and differ in their case hash. -/
theorem trace_hash_shared_case_hash_differs (t1 t2 : Trace)
    (hact : t1.map (·.activity) = t2.map (·.activity))
    (hobj : t1.map (fun e => e.objects.toFinset) ≠
      t2.map (fun e => e.objects.toFinset)) :
    get_trace_hash t1 = get_trace_hash t2 ∧
      get_case_hash t1 ≠ get_case_hash t2 := by
  refine ⟨hact, fun hce => hobj ?_⟩
  have h2 := congrArg (List.map Prod.snd) hce
  simpa [get_case_hash, List.map_map] using h2

/-- Witness for C4: one-event traces with the same activity but different
referenced ids. -/
theorem trace_hash_shared_case_hash_differs_witness :
    get_trace_hash [(⟨"A", 0, [("order", ["o1"])]⟩ : Event)] =
        get_trace_hash [(⟨"A", 0, [("order", ["o2"])]⟩ : Event)] ∧
      get_case_hash [(⟨"A", 0, [("order", ["o1"])]⟩ : Event)] ≠
        get_case_hash [(⟨"A", 0, [("order", ["o2"])]⟩ : Event)] :=
  trace_hash_shared_case_hash_differs _ _ (by decide) (by decide)

/-- Claim C5: a single-event trace renders to the graph text consisting of
the `digraph` header, exactly one node statement labeled with the activity of the event, and no edge statement, for either value of `include_objects`. -/
theorem single_event_graph (e : Event) (io : Bool) :
    directly_follows_graph [e] io =
      "digraph G \x7b\n    rankdir=LR;\n" ++
        nodeStmt e.activity e.activity ++ "\n\x7d" := by
  have h1 : ("digraph G \x7b\n    rankdir=LR;\n    \"" : String) =
      "digraph G \x7b\n    rankdir=LR;\n" ++ "    \"" := rfl
  simp [directly_follows_graph, List.headI, nodeStmt, String.append_assoc]
  rw [h1, String.append_assoc]

/-- Claim C8: a lookup through `get_traces_by_variant` whose object type or
trace hash is absent returns the empty list, but as a defaultdict side
effect inserts an empty bucket for that (type, hash) pair into the internal
`_variant_count` map: afterwards the nested lookup finds `some []` where it
found `none` before, so the derived state changed. -/
theorem failed_lookup_returns_empty_but_inserts (c : Cases) (T : ObjType)
    (v : Variant)
    (h : vcLookup? c.variant_count T (get_trace_hash v.trace) = none) :
    (c.get_traces_by_variant T v).1 = [] ∧
      vcLookup? ((c.get_traces_by_variant T v).2).variant_count T
        (get_trace_hash v.trace) = some [] := by
  unfold vcLookup? at h
  unfold Cases.get_traces_by_variant vcLookup?
  cases hty : dget? c.variant_count T with
  | none =>
    simp [daccess, hty, dget?, dget?_dset_self]
  | some g =>
    rw [hty] at h
    have hh : dget? g (get_trace_hash v.trace) = none := h
    simp [daccess, hty, hh, dget?_dset_self, dget?_append_of_none hh, dget?]

/-- Witness for C8: looking up an object type absent from the demo index. -/
theorem failed_lookup_returns_empty_but_inserts_witness :
    ((Cases.reload demoLog).get_traces_by_variant "item" demoV).1 = [] ∧
      vcLookup?
        (((Cases.reload demoLog).get_traces_by_variant "item" demoV).2).variant_count
        "item" (get_trace_hash demoV.trace) = some [] :=
  failed_lookup_returns_empty_but_inserts (Cases.reload demoLog) "item" demoV
    (by decide)

/-- Counterexample to claim C1 as stated: in `demoLog` the object type
`order` has two raw instances (`o1`, `o2`, both keys of
`cases_by_object["order"]`), but their traces collapse under case-hash
deduplication, so the single variant is computed with percentage `1`
(count 1 over the post-dedup total 1), not `1/2` = count over the raw
instance count as the claim demands. -/
theorem percentage_raw_denominator_cex :
    ((dget? (Cases.reload demoLog).variants "order").getD []).map
        (fun v => (v.percentage, v.count)) = [((1 : ℚ), 1)] ∧
      ((dget? (Cases.reload demoLog).cases_by_object "order").getD []).length
        = 2 ∧
      (1 : ℚ) ≠ ((1 : ℕ) : ℚ) / ((2 : ℕ) : ℚ) := by
  refine ⟨?_, by decide, by norm_num⟩
  simp [Cases.reload, demoLog, demoE, buildCBO, addEvent, cboAdd, buildVC,
    vcAdd, groupStep, setInsert, buildVariants, mkVariants, dget?, dmodify,
    get_trace_hash, get_case_hash]

/-- Claim C1 as amended: the percentage of every variant is its count divided by
the post-deduplication total of that object type, i.e. by the sum of the
counts over the variants of that type (the sum of bucket set sizes), not by the
raw object-instance count. -/
theorem percentage_eq_count_div_dedup_total (evs : List Event) (T : ObjType)
    (vs : List Variant)
    (hvs : dget? (Cases.reload evs).variants T = some vs)
    (v : Variant) (hv : v ∈ vs) :
    v.percentage = (v.count : ℚ) / (((vs.map (·.count)).sum : ℕ) : ℚ) := by
  have hvs' : (dget? (buildVC (buildCBO evs)) T).map mkVariants = some vs := by
    rw [← dget?_map_snd]
    exact hvs
  obtain ⟨g, _, rfl⟩ := Option.map_eq_some'.1 hvs'
  obtain ⟨q, _, rfl⟩ := List.mem_map.1 hv
  have hc : ((mkVariants g).map (·.count)).sum =
      (g.map (fun q => q.2.length)).sum := by
    simp only [mkVariants, List.map_map]
    rfl
  rw [hc]

/-- Witness for the amended C1 at the demonstration log. -/
theorem percentage_eq_count_div_dedup_total_witness :
    (Variant.mk [demoE] 1 1).percentage =
      ((Variant.mk [demoE] 1 1).count : ℚ) /
        (((([Variant.mk [demoE] 1 1]).map (·.count)).sum : ℕ) : ℚ) :=
  percentage_eq_count_div_dedup_total demoLog "order" [Variant.mk [demoE] 1 1]
    (by
      simp [Cases.reload, demoLog, demoE, buildCBO, addEvent, cboAdd, buildVC,
        vcAdd, groupStep, setInsert, buildVariants, mkVariants, dget?, dmodify,
        get_trace_hash, get_case_hash])
    (Variant.mk [demoE] 1 1) (by simp)

/-- Auxiliary for C7: when the groups map of no object type contains the trace
hash, the `get_objects_by_variant` accumulation never touches its
accumulator and never fails. -/
theorem objects_fold_skips_empty (h : List String)
    (l : List (ObjType × List (List String × List Trace)))
    (hl : ∀ p ∈ l, dget? p.2 h = none)
    (acc : List (ObjType × Finset ObjId)) :
    l.foldlM
      (fun acc p =>
        ((dget? p.2 h).getD []).foldlM
          (fun acc t =>
            t.foldlM
              (fun acc e =>
                match dget? e.objects p.1 with
                | none => none
                | some ids =>
                    some (dmodify acc p.1 ∅ (fun s => s ∪ ids.toFinset)))
              acc)
          acc)
      acc = some acc := by
  induction l generalizing acc with
  | nil => rfl
  | cons p rest ih =>
    have hp : dget? p.2 h = none := hl p (List.mem_cons_self _ _)
    simp only [List.foldlM, hp, Option.getD_none]
    exact ih (fun q hq => hl q (List.mem_cons_of_mem _ hq)) acc

/-- Claim C7: lookups with an unknown object type or trace hash return an
empty result and never raise: `get_traces_by_variant` yields `[]` when the
nested lookup misses, and `get_objects_by_variant` yields `some []` (an
empty mapping, no `KeyError`) when the trace hash occurs in the groups map of no
type. -/
theorem unknown_lookup_returns_empty (evs : List Event) (T : ObjType)
    (v : Variant) :
    (vcLookup? (Cases.reload evs).variant_count T (get_trace_hash v.trace)
        = none →
      ((Cases.reload evs).get_traces_by_variant T v).1 = []) ∧
    ((∀ p ∈ (Cases.reload evs).variant_count,
        dget? p.2 (get_trace_hash v.trace) = none) →
      (Cases.reload evs).get_objects_by_variant v = some []) := by
  constructor
  · intro h
    rw [get_traces_by_variant_fst, h]
    rfl
  · intro h
    unfold Cases.get_objects_by_variant
    exact objects_fold_skips_empty _ _ h []

/-- Witness for C7: object type `item` and the empty trace hash are both
absent from the demo index. -/
theorem unknown_lookup_returns_empty_witness :
    ((Cases.reload demoLog).get_traces_by_variant "item" demoV).1 = [] ∧
      (Cases.reload demoLog).get_objects_by_variant demoV = some [] :=
  ⟨(unknown_lookup_returns_empty demoLog "item" demoV).1 (by decide),
   (unknown_lookup_returns_empty demoLog "item" demoV).2 (by decide)⟩

/-- Claim C6: a trace with activities A, B, A produces exactly the three
node statements with synthetic ids `A_0`, `B_1`, `A_2` (pairwise distinct,
so repeated activity names at different positions do not collapse) and
exactly the two unlabeled edge statements `A_0 -> B_1` and `B_1 -> A_2`. -/
theorem aba_graph_nodes_and_edges (e0 e1 e2 : Event)
    (h0 : e0.activity = "A") (h1 : e1.activity = "B")
    (h2 : e2.activity = "A") :
    dfgNodeLines [e0, e1, e2] =
        [nodeStmt "A_0" "A", nodeStmt "B_1" "B", nodeStmt "A_2" "A"] ∧
      ([nodeStmt "A_0" "A", nodeStmt "B_1" "B", nodeStmt "A_2" "A"] :
        List String).Nodup ∧
      dfgEdgeLines [e0, e1, e2] false =
        [edgeStmt "A_0" "B_1" "", edgeStmt "B_1" "A_2" ""] := by
  refine ⟨?_, by decide, ?_⟩
  · simp [dfgNodeLines, addUnique, nodeStmt, List.enum, List.enumFrom,
      h0, h1, h2]
    decide
  · simp [dfgEdgeLines, addUnique, edgeStmt, h0, h1, h2, List.getD,
      List.range_succ]
    decide

/-- Witness for C6 at a concrete A, B, A trace. -/
theorem aba_graph_nodes_and_edges_witness :
    dfgNodeLines
        [(⟨"A", 0, []⟩ : Event), (⟨"B", 1, []⟩ : Event), (⟨"A", 2, []⟩ : Event)] =
        [nodeStmt "A_0" "A", nodeStmt "B_1" "B", nodeStmt "A_2" "A"] ∧
      ([nodeStmt "A_0" "A", nodeStmt "B_1" "B", nodeStmt "A_2" "A"] :
        List String).Nodup ∧
      dfgEdgeLines
        [(⟨"A", 0, []⟩ : Event), (⟨"B", 1, []⟩ : Event), (⟨"A", 2, []⟩ : Event)]
        false = [edgeStmt "A_0" "B_1" "", edgeStmt "B_1" "A_2" ""] :=
  aba_graph_nodes_and_edges _ _ _ rfl rfl rfl

/- ### C10: percentages of a type sum to one -/

/-- Buckets produced by `setInsert` are never empty. -/
theorem setInsert_ne_nil (b : List Trace) (t : Trace) : setInsert b t ≠ [] := by
  unfold setInsert
  by_cases hm : get_case_hash t ∈ b.map get_case_hash
  · simp only [hm, if_true]
    intro hb
    subst hb
    simp at hm
  · simp [hm]

/-- Elements of `setInsert b t` come from `b` or are `t` itself. -/
theorem mem_setInsert {b : List Trace} {t u : Trace}
    (h : u ∈ setInsert b t) : u ∈ b ∨ u = t := by
  unfold setInsert at h
  by_cases hm : get_case_hash t ∈ b.map get_case_hash
  · simp only [hm, if_true] at h
    exact Or.inl h
  · simp only [hm, if_false] at h
    rcases List.mem_append.1 h with h | h
    · exact Or.inl h
    · exact Or.inr (List.mem_singleton.1 h)

/-- Well-formedness of the groups maps after `reload`: every object type
present has a nonempty groups map, and every bucket is nonempty. -/
def WFvc (vc : List (ObjType × List (List String × List Trace))) : Prop :=
  ∀ p ∈ vc, p.2 ≠ [] ∧ ∀ q ∈ p.2, q.2 ≠ []

theorem WFvc_vcAdd {vc : List (ObjType × List (List String × List Trace))}
    (h : WFvc vc) (ty : ObjType) (t : Trace) : WFvc (vcAdd vc ty t) := by
  intro p hp
  rcases mem_dmodify hp with hold | ⟨hk, hval⟩
  · exact h p hold
  · refine ⟨?_, ?_⟩
    · rw [hval]
      exact dmodify_ne_nil _ _ _ _
    · intro q hq
      rw [hval] at hq
      rcases mem_dmodify hq with hqold | ⟨_, hqval⟩
      · cases hgv : dget? vc ty with
        | none => rw [hgv] at hqold; simp at hqold
        | some g =>
          rw [hgv] at hqold
          exact (h (ty, g) (dget?_mem hgv)).2 q hqold
      · rw [hqval]
        exact setInsert_ne_nil _ _

theorem WFvc_buildVC (cbo : List (ObjType × List (ObjId × Trace))) :
    WFvc (buildVC cbo) := by
  unfold buildVC
  refine foldl_preserves _ _ (fun acc p _ hacc => ?_) (by intro p hp; simp at hp)
  exact foldl_preserves _ _ (fun acc2 q _ hacc2 => WFvc_vcAdd hacc2 p.1 q.2) hacc

/-- Sum of a right-scaled rational list. -/
theorem list_sum_map_mul_right (l : List ℚ) (c : ℚ) :
    (l.map (fun x => x * c)).sum = l.sum * c := by
  induction l with
  | nil => simp
  | cons x xs ih => simp [ih, add_mul]

/-- Claim C10: after `Cases.reload`, for every object type present in the
index the percentages of the variants of that type sum to exactly one (in exact
rational arithmetic): each percentage is a deduplicated bucket size over
the sum of deduplicated bucket sizes, and that total is at least one for a
present type. -/
theorem percentages_sum_to_one (evs : List Event) (T : ObjType)
    (vs : List Variant)
    (hvs : dget? (Cases.reload evs).variants T = some vs) :
    (vs.map (·.percentage)).sum = 1 := by
  have hvs' : (dget? (buildVC (buildCBO evs)) T).map mkVariants = some vs := by
    rw [← dget?_map_snd]
    exact hvs
  obtain ⟨g, hg, rfl⟩ := Option.map_eq_some'.1 hvs'
  have hwf := WFvc_buildVC (buildCBO evs) (T, g) (dget?_mem hg)
  have htot : (g.map (fun q => q.2.length)).sum ≠ 0 := by
    intro h0
    obtain ⟨q, hq⟩ := List.exists_mem_of_ne_nil g hwf.1
    have hq0 : q.2.length = 0 :=
      List.sum_eq_zero_iff.1 h0 _ (List.mem_map_of_mem _ hq)
    exact hwf.2 q hq (List.length_eq_zero.1 hq0)
  set t : ℕ := (g.map (fun q => q.2.length)).sum with ht
  have hmap : (mkVariants g).map (·.percentage) =
      g.map (fun q => (q.2.length : ℚ) / (t : ℚ)) := by
    simp only [mkVariants, List.map_map]
    rfl
  rw [hmap]
  have h1 : g.map (fun q => (q.2.length : ℚ) / (t : ℚ)) =
      (g.map (fun q => (q.2.length : ℚ))).map (fun x => x * (t : ℚ)⁻¹) := by
    simp [List.map_map, div_eq_mul_inv]
  rw [h1, list_sum_map_mul_right]
  have h3 : ∀ l : List (List String × List Trace),
      (l.map (fun q => (q.2.length : ℚ))).sum =
        (((l.map (fun q => q.2.length)).sum : ℕ) : ℚ) := by
    intro l
    induction l with
    | nil => simp
    | cons x xs ih => simp [ih]
  rw [h3 g, ← ht]
  exact mul_inv_cancel₀ (Nat.cast_ne_zero.2 htot)

/-- Witness for C10 at the demonstration log. -/
theorem percentages_sum_to_one_witness :
    (([Variant.mk [demoE] 1 1]).map (·.percentage)).sum = 1 :=
  percentages_sum_to_one demoLog "order" [Variant.mk [demoE] 1 1]
    (by
      simp [Cases.reload, demoLog, demoE, buildCBO, addEvent, cboAdd, buildVC,
        vcAdd, groupStep, setInsert, buildVariants, mkVariants, dget?, dmodify,
        get_trace_hash, get_case_hash])

/- ### C9: events stored under a type always reference that type -/

/-- Every event of the trace has the object type among its objects keys. -/
def evOK (tr : Trace) (T : ObjType) : Prop :=
  ∀ e ∈ tr, (dget? e.objects T).isSome

/-- Invariant of `cases_by_object`: traces keyed under a type only hold
events referencing that type. -/
def WFcbo9 (cbo : List (ObjType × List (ObjId × Trace))) : Prop :=
  ∀ p ∈ cbo, ∀ q ∈ p.2, evOK q.2 p.1

theorem evOK_inner_dmodify {inner : List (ObjId × Trace)} {ty : ObjType}
    {e : Event} (hin : ∀ q ∈ inner, evOK q.2 ty)
    (hs : (dget? e.objects ty).isSome) (oid : ObjId) :
    ∀ q ∈ dmodify inner oid [] (fun tr => tr ++ [e]), evOK q.2 ty := by
  intro q hq
  rcases mem_dmodify hq with hold | ⟨_, hval⟩
  · exact hin q hold
  · rw [hval]
    intro x hx
    rcases List.mem_append.1 hx with hx | hx
    · cases hgo : dget? inner oid with
      | none => rw [hgo] at hx; simp at hx
      | some tr0 =>
        rw [hgo] at hx
        exact hin (oid, tr0) (dget?_mem hgo) x hx
    · rw [List.mem_singleton.1 hx]
      exact hs

theorem WFcbo9_cboAdd {cbo : List (ObjType × List (ObjId × Trace))}
    {ty : ObjType} {e : Event} (h : WFcbo9 cbo)
    (hs : (dget? e.objects ty).isSome) (oid : ObjId) :
    WFcbo9 (cboAdd cbo ty oid e) := by
  intro p hp
  rcases mem_dmodify hp with hold | ⟨hk, hval⟩
  · exact h p hold
  · intro q hq
    rw [hval] at hq
    rw [hk]
    refine evOK_inner_dmodify ?_ hs oid q hq
    intro q' hq'
    cases hgv : dget? cbo ty with
    | none => rw [hgv] at hq'; simp at hq'
    | some g => rw [hgv] at hq'; exact h (ty, g) (dget?_mem hgv) q' hq'

theorem WFcbo9_addEvent {cbo : List (ObjType × List (ObjId × Trace))}
    (h : WFcbo9 cbo) (e : Event) : WFcbo9 (addEvent cbo e) := by
  unfold addEvent
  refine foldl_preserves _ _ (fun acc p hp hacc => ?_) h
  refine foldl_preserves _ _ (fun acc2 oid _ hacc2 => ?_) hacc
  exact WFcbo9_cboAdd hacc2 (isSome_dget?_of_mem hp) oid

theorem WFcbo9_buildCBO (events : List Event) : WFcbo9 (buildCBO events) := by
  unfold buildCBO
  refine foldl_preserves _ _ (fun acc e _ hacc => WFcbo9_addEvent hacc e) ?_
  intro p hp
  simp at hp

/-- Invariant of the variant-groups map: every trace stored in a bucket
under a type only holds events referencing that type. -/
def WFvc9 (vc : List (ObjType × List (List String × List Trace))) : Prop :=
  ∀ p ∈ vc, ∀ q ∈ p.2, ∀ tr ∈ q.2, evOK tr p.1

theorem WFvc9_vcAdd {vc : List (ObjType × List (List String × List Trace))}
    {ty : ObjType} {t : Trace} (h : WFvc9 vc) (hok : evOK t ty) :
    WFvc9 (vcAdd vc ty t) := by
  intro p hp
  rcases mem_dmodify hp with hold | ⟨hk, hval⟩
  · exact h p hold
  · intro q hq tr htr
    rw [hval] at hq
    rw [hk]
    rcases mem_dmodify hq with hqold | ⟨_, hqval⟩
    · cases hgv : dget? vc ty with
      | none => rw [hgv] at hqold; simp at hqold
      | some g0 =>
        rw [hgv] at hqold
        exact h (ty, g0) (dget?_mem hgv) q hqold tr htr
    · rw [hqval] at htr
      rcases mem_setInsert htr with htr' | rfl
      · cases hgv : dget? vc ty with
        | none => rw [hgv] at htr'; simp [dget?] at htr'
        | some g0 =>
          rw [hgv] at htr'
          simp only [Option.getD_some] at htr'
          cases hb : dget? g0 (get_trace_hash t) with
          | none => rw [hb] at htr'; simp at htr'
          | some b =>
            rw [hb] at htr'
            exact h (ty, g0) (dget?_mem hgv) _ (dget?_mem hb) tr htr'
      · exact hok

theorem WFvc9_buildVC (cbo : List (ObjType × List (ObjId × Trace)))
    (hc : WFcbo9 cbo) : WFvc9 (buildVC cbo) := by
  unfold buildVC
  refine foldl_preserves _ _ (fun acc p hp hacc => ?_) ?_
  · exact foldl_preserves _ _
      (fun acc2 q hq hacc2 => WFvc9_vcAdd hacc2 (hc p hp q hq)) hacc
  · intro p hp
    simp at hp

/-- A monadic fold over `Option` succeeds when every step succeeds. -/
theorem foldlM_isSome {σ α : Type} {f : σ → α → Option σ} :
    ∀ (l : List α), (∀ a ∈ l, ∀ s : σ, (f s a).isSome) →
      ∀ s : σ, (l.foldlM f s).isSome
  | [], _, s => by simp [List.foldlM]
  | a :: l, hf, s => by
    obtain ⟨s', hs'⟩ :=
      Option.isSome_iff_exists.1 (hf a (List.mem_cons_self _ _) s)
    rw [List.foldlM_cons, hs']
    exact foldlM_isSome l (fun x hx => hf x (List.mem_cons_of_mem _ hx)) s'

/-- Claim C9: on an index built by `Cases.reload`, the unguarded indexing
`event.objects[object_type]` performed by `get_objects_by_variant` never
fails: the call always returns `some` result. -/
theorem get_objects_by_variant_never_fails (evs : List Event) (v : Variant) :
    ((Cases.reload evs).get_objects_by_variant v).isSome := by
  have h9 := WFvc9_buildVC (buildCBO evs) (WFcbo9_buildCBO evs)
  unfold Cases.get_objects_by_variant
  refine foldlM_isSome _ (fun p hp => ?_) []
  intro s
  refine foldlM_isSome _ (fun tr htr => ?_) s
  have hok : evOK tr p.1 := by
    cases hb : dget? p.2 (get_trace_hash v.trace) with
    | none => rw [hb] at htr; simp at htr
    | some b =>
      rw [hb] at htr
      exact h9 p hp _ (dget?_mem hb) tr htr
  intro s2
  refine foldlM_isSome _ (fun e he => ?_) s2
  intro s3
  obtain ⟨ids, hids⟩ := Option.isSome_iff_exists.1 (hok e he)
  simp [hids]

/- ### C2: per-type grouping counts distinct case hashes -/

/-- Grouping a plain list of traces (all of one object type) by trace hash
with case-hash deduplication inside each bucket, exactly as the second
`reload` loop does per type. -/
def groupTraces (trs : List Trace) : List (List String × List Trace) :=
  trs.foldl groupStep []

/-- The sum of bucket sizes of the groups map of one type: this is both the
`total` denominator of `reload` and the sum of the variant counts. -/
def sumSizes (g : List (List String × List Trace)) : ℕ :=
  (g.map (fun q => q.2.length)).sum

/-- All case hashes stored anywhere in a groups map. -/
def allCaseF (g : List (List String × List Trace)) :
    Finset (List (String × Finset (ObjType × List ObjId))) :=
  ((g.flatMap (fun q => q.2)).map get_case_hash).toFinset

/-- Well-formedness of a one-type groups map: every bucket is keyed by the
trace hash of its members, bucket keys are distinct, and inside a bucket
case hashes are distinct. -/
def WFg (g : List (List String × List Trace)) : Prop :=
  (∀ p ∈ g, ∀ t ∈ p.2, get_trace_hash t = p.1) ∧
    (g.map Prod.fst).Nodup ∧
    ∀ p ∈ g, (p.2.map get_case_hash).Nodup

/-- The case hash determines the trace hash (its activity components). -/
theorem trace_hash_of_case_hash {t1 t2 : Trace}
    (h : get_case_hash t1 = get_case_hash t2) :
    get_trace_hash t1 = get_trace_hash t2 := by
  have h2 := congrArg (List.map Prod.fst) h
  simpa [get_case_hash, get_trace_hash, List.map_map] using h2

theorem allCaseF_nil : allCaseF [] = ∅ := rfl

theorem allCaseF_cons (p : List String × List Trace)
    (g : List (List String × List Trace)) :
    allCaseF (p :: g) = (p.2.map get_case_hash).toFinset ∪ allCaseF g := by
  simp [allCaseF]

theorem sumSizes_cons (p : List String × List Trace)
    (g : List (List String × List Trace)) :
    sumSizes (p :: g) = p.2.length + sumSizes g := by
  simp [sumSizes]

/-- A case hash found in some bucket of a well-formed groups map is found
in the bucket addressed by its trace hash. -/
theorem bucket_of_mem_allCaseF {g : List (List String × List Trace)}
    (hwf : WFg g) {t : Trace} (h : get_case_hash t ∈ allCaseF g) :
    get_case_hash t ∈
      ((dget? g (get_trace_hash t)).getD []).map get_case_hash := by
  simp only [allCaseF, List.mem_toFinset, List.mem_map, List.mem_flatMap] at h
  obtain ⟨u, ⟨p, hp, hu⟩, hck⟩ := h
  have hth : get_trace_hash u = get_trace_hash t := trace_hash_of_case_hash hck
  have hkey : p.1 = get_trace_hash t := (hwf.1 p hp u hu).symm.trans hth
  have hget : dget? g (get_trace_hash t) = some p.2 := by
    rw [← hkey]
    exact dget?_eq_of_mem_nodup hwf.2.1 hp
  rw [hget]
  simp only [Option.getD_some]
  exact List.mem_map.2 ⟨u, hu, hck⟩

/-- Conversely, the case hashes of the addressed bucket are in `allCaseF`. -/
theorem mem_allCaseF_of_bucket {g : List (List String × List Trace)}
    {t : Trace}
    (h : get_case_hash t ∈
      ((dget? g (get_trace_hash t)).getD []).map get_case_hash) :
    get_case_hash t ∈ allCaseF g := by
  cases hb : dget? g (get_trace_hash t) with
  | none => rw [hb] at h; simp at h
  | some b =>
    rw [hb] at h
    simp only [Option.getD_some] at h
    obtain ⟨u, hu, hck⟩ := List.mem_map.1 h
    simp only [allCaseF, List.mem_toFinset, List.mem_map, List.mem_flatMap]
    exact ⟨u, ⟨(get_trace_hash t, b), dget?_mem hb, hu⟩, hck⟩

/-- When the addressed bucket already holds the case hash, `groupStep` is a
no-op. -/
theorem groupStep_eq_self {g : List (List String × List Trace)} {t : Trace}
    (hm : get_case_hash t ∈
      ((dget? g (get_trace_hash t)).getD []).map get_case_hash) :
    groupStep g t = g := by
  cases hb : dget? g (get_trace_hash t) with
  | none => rw [hb] at hm; simp at hm
  | some b =>
    rw [hb] at hm
    simp only [Option.getD_some] at hm
    unfold groupStep
    exact dmodify_eq_self hb [] (by unfold setInsert; rw [if_pos hm])

/-- When the case hash is new to its bucket, `groupStep` inserts it. -/
theorem allCaseF_groupStep_notmem {t : Trace} :
    ∀ {g : List (List String × List Trace)},
      get_case_hash t ∉
        ((dget? g (get_trace_hash t)).getD []).map get_case_hash →
      allCaseF (groupStep g t) = insert (get_case_hash t) (allCaseF g) := by
  intro g
  induction g with
  | nil =>
    intro _
    simp [groupStep, dmodify, setInsert, allCaseF]
  | cons p rest ih =>
    intro hm
    obtain ⟨k0, b0⟩ := p
    by_cases hk : get_trace_hash t = k0
    · subst hk
      have hmb : get_case_hash t ∉ b0.map get_case_hash := by
        simpa [dget?] using hm
      have hred : groupStep ((get_trace_hash t, b0) :: rest) t =
          (get_trace_hash t, setInsert b0 t) :: rest := by
        simp [groupStep, dmodify]
      rw [hred, allCaseF_cons, allCaseF_cons]
      unfold setInsert
      rw [if_neg hmb, List.map_append, List.toFinset_append]
      ext x
      simp [or_comm, or_assoc, or_left_comm]
    · have hm' : get_case_hash t ∉
          ((dget? rest (get_trace_hash t)).getD []).map get_case_hash := by
        simpa [dget?, hk] using hm
      have hred : groupStep ((k0, b0) :: rest) t =
          (k0, b0) :: groupStep rest t := by
        simp [groupStep, dmodify, hk]
      rw [hred, allCaseF_cons, allCaseF_cons, ih hm']
      ext x
      simp [or_comm, or_assoc, or_left_comm]

theorem sumSizes_groupStep_notmem {t : Trace} :
    ∀ {g : List (List String × List Trace)},
      get_case_hash t ∉
        ((dget? g (get_trace_hash t)).getD []).map get_case_hash →
      sumSizes (groupStep g t) = sumSizes g + 1 := by
  intro g
  induction g with
  | nil =>
    intro _
    simp [groupStep, dmodify, setInsert, sumSizes]
  | cons p rest ih =>
    intro hm
    obtain ⟨k0, b0⟩ := p
    by_cases hk : get_trace_hash t = k0
    · subst hk
      have hmb : get_case_hash t ∉ b0.map get_case_hash := by
        simpa [dget?] using hm
      have hred : groupStep ((get_trace_hash t, b0) :: rest) t =
          (get_trace_hash t, setInsert b0 t) :: rest := by
        simp [groupStep, dmodify]
      rw [hred, sumSizes_cons, sumSizes_cons]
      unfold setInsert
      rw [if_neg hmb]
      simp [Nat.add_assoc, Nat.add_comm, Nat.add_left_comm]
    · have hm' : get_case_hash t ∉
          ((dget? rest (get_trace_hash t)).getD []).map get_case_hash := by
        simpa [dget?, hk] using hm
      have hred : groupStep ((k0, b0) :: rest) t =
          (k0, b0) :: groupStep rest t := by
        simp [groupStep, dmodify, hk]
      rw [hred, sumSizes_cons, sumSizes_cons, ih hm']
      omega

/-- The step `groupStep` preserves well-formedness. -/
theorem WFg_groupStep {g : List (List String × List Trace)} (h : WFg g)
    (t : Trace) : WFg (groupStep g t) := by
  obtain ⟨h1, h2, h3⟩ := h
  have hbnodup :
      (((dget? g (get_trace_hash t)).getD []).map get_case_hash).Nodup := by
    cases hb : dget? g (get_trace_hash t) with
    | none => simp
    | some b => exact h3 _ (dget?_mem hb)
  refine ⟨?_, ?_, ?_⟩
  · intro p hp
    rcases mem_dmodify hp with hold | ⟨hk, hval⟩
    · exact h1 p hold
    · intro u hu
      rw [hval] at hu
      rw [hk]
      rcases mem_setInsert hu with hu' | rfl
      · cases hb : dget? g (get_trace_hash t) with
        | none => rw [hb] at hu'; simp at hu'
        | some b =>
          rw [hb] at hu'
          simp only [Option.getD_some] at hu'
          exact (h1 _ (dget?_mem hb) u hu').trans rfl
      · rfl
  · exact nodup_keys_dmodify h2 _ _ _
  · intro p hp
    rcases mem_dmodify hp with hold | ⟨_, hval⟩
    · exact h3 p hold
    · rw [hval]
      unfold setInsert
      by_cases hm : get_case_hash t ∈
          ((dget? g (get_trace_hash t)).getD []).map get_case_hash
      · rw [if_pos hm]
        exact hbnodup
      · rw [if_neg hm, List.map_append]
        simp [List.nodup_append, hbnodup, hm]

/-- The running invariant of the per-type grouping: well-formed, and the
bucket sizes total exactly the number of distinct case hashes seen. -/
def GInv (g : List (List String × List Trace)) : Prop :=
  WFg g ∧ sumSizes g = (allCaseF g).card

theorem GInv_nil : GInv [] := by
  refine ⟨⟨?_, ?_, ?_⟩, ?_⟩ <;> simp [sumSizes, allCaseF]

theorem GInv_foldl (trs : List Trace) :
    ∀ {g : List (List String × List Trace)}, GInv g →
      GInv (trs.foldl groupStep g) ∧
        allCaseF (trs.foldl groupStep g) =
          allCaseF g ∪ (trs.map get_case_hash).toFinset := by
  induction trs with
  | nil =>
    intro g hg
    exact ⟨hg, by simp⟩
  | cons t ts ih =>
    intro g hg
    rw [List.foldl_cons]
    by_cases hm : get_case_hash t ∈
        ((dget? g (get_trace_hash t)).getD []).map get_case_hash
    · rw [groupStep_eq_self hm]
      obtain ⟨hgi, hall⟩ := ih hg
      refine ⟨hgi, ?_⟩
      rw [hall]
      have hmem : get_case_hash t ∈ allCaseF g := mem_allCaseF_of_bucket hm
      ext x
      simp only [Finset.mem_union, List.toFinset_cons, Finset.mem_insert,
        List.map_cons]
      constructor
      · rintro (hx | hx)
        · exact Or.inl hx
        · exact Or.inr (Or.inr hx)
      · rintro (hx | hx | hx)
        · exact Or.inl hx
        · exact Or.inl (hx ▸ hmem)
        · exact Or.inr hx
    · have hnot : get_case_hash t ∉ allCaseF g :=
        fun hc => hm (bucket_of_mem_allCaseF hg.1 hc)
      have hstep : GInv (groupStep g t) := by
        refine ⟨WFg_groupStep hg.1 t, ?_⟩
        rw [sumSizes_groupStep_notmem hm, allCaseF_groupStep_notmem hm,
          Finset.card_insert_of_not_mem hnot, hg.2]
      obtain ⟨hgi, hall⟩ := ih hstep
      refine ⟨hgi, ?_⟩
      rw [hall, allCaseF_groupStep_notmem hm]
      ext x
      simp only [Finset.mem_union, Finset.mem_insert, List.toFinset_cons,
        List.map_cons]
      constructor
      · rintro ((hx | hx) | hx)
        · exact Or.inr (Or.inl hx)
        · exact Or.inl hx
        · exact Or.inr (Or.inr hx)
      · rintro (hx | hx | hx)
        · exact Or.inl (Or.inr hx)
        · exact Or.inl (Or.inl hx)
        · exact Or.inr hx

/-- The bucket sizes of the per-type grouping total the number of distinct
case hashes among the grouped traces. -/
theorem sumSizes_groupTraces (trs : List Trace) :
    sumSizes (groupTraces trs) = (trs.map get_case_hash).dedup.length := by
  obtain ⟨⟨_, hsum⟩, hall⟩ := GInv_foldl trs GInv_nil
  rw [groupTraces, hsum, hall, allCaseF_nil, Finset.empty_union,
    List.card_toFinset]

/- ### Bridging buildVC to the per-type grouping -/

theorem dget?_vcAdd (vc : List (ObjType × List (List String × List Trace)))
    (ty : ObjType) (t : Trace) (T : ObjType) :
    dget? (vcAdd vc ty t) T =
      if T = ty then some (groupStep ((dget? vc ty).getD []) t)
      else dget? vc T := by
  unfold vcAdd
  by_cases h : T = ty
  · subst h
    rw [dget?_dmodify_self, if_pos rfl]
  · rw [dget?_dmodify_ne h, if_neg h]

theorem innerfold_dget?_ne {ty T : ObjType} (h : T ≠ ty) :
    ∀ (l : List (ObjId × Trace))
      (vc : List (ObjType × List (List String × List Trace))),
      dget? (l.foldl (fun vc q => vcAdd vc ty q.2) vc) T = dget? vc T
  | [], _ => rfl
  | q :: qs, vc => by
      rw [List.foldl_cons, innerfold_dget?_ne h qs _, dget?_vcAdd, if_neg h]

theorem innerfold_dget?_self (ty : ObjType) :
    ∀ (l : List (ObjId × Trace))
      (vc : List (ObjType × List (List String × List Trace))),
      dget? (l.foldl (fun vc q => vcAdd vc ty q.2) vc) ty =
        if l.isEmpty then dget? vc ty
        else some ((l.map Prod.snd).foldl groupStep ((dget? vc ty).getD [])) := by
  intro l
  induction l with
  | nil => intro vc; simp
  | cons q qs ih =>
    intro vc
    have hv : dget? (vcAdd vc ty q.2) ty =
        some (groupStep ((dget? vc ty).getD []) q.2) := by
      rw [dget?_vcAdd, if_pos rfl]
    rw [List.foldl_cons, ih]
    cases qs with
    | nil => simp [hv]
    | cons q2 qs2 => simp [hv]

theorem outerfold_dget?_ne {T : ObjType} :
    ∀ (entries : List (ObjType × List (ObjId × Trace)))
      (vc : List (ObjType × List (List String × List Trace))),
      (∀ p ∈ entries, p.1 ≠ T) →
      dget? (entries.foldl
        (fun vc p => p.2.foldl (fun vc q => vcAdd vc p.1 q.2) vc) vc) T =
        dget? vc T
  | [], _, _ => rfl
  | p :: rest, vc, h => by
      rw [List.foldl_cons,
        outerfold_dget?_ne rest _ (fun q hq => h q (List.mem_cons_of_mem _ hq)),
        innerfold_dget?_ne (Ne.symm (h p (List.mem_cons_self _ _)))]

/-- On a `cases_by_object` map with distinct type keys, `buildVC` assigns to
each type exactly the grouping of the traces of that type. -/
theorem dget?_buildVC_of_mem {cbo : List (ObjType × List (ObjId × Trace))}
    (hnd : (cbo.map Prod.fst).Nodup) {T : ObjType}
    {inner : List (ObjId × Trace)} (hmem : (T, inner) ∈ cbo)
    (hne : inner ≠ []) :
    dget? (buildVC cbo) T = some (groupTraces (inner.map Prod.snd)) := by
  unfold buildVC
  suffices H : ∀ (l : List (ObjType × List (ObjId × Trace)))
      (vc : List (ObjType × List (List String × List Trace))),
      (l.map Prod.fst).Nodup → (T, inner) ∈ l → dget? vc T = none →
      dget? (l.foldl
        (fun vc p => p.2.foldl (fun vc q => vcAdd vc p.1 q.2) vc) vc) T =
        some (groupTraces (inner.map Prod.snd)) by
    exact H cbo [] hnd hmem rfl
  intro l
  induction l with
  | nil =>
    intro vc _ hm _
    simp at hm
  | cons p rest ih =>
    intro vc hnd2 hm hnone
    rw [List.map_cons, List.nodup_cons] at hnd2
    rw [List.foldl_cons]
    rcases List.mem_cons.1 hm with heq | hmem2
    · subst heq
      have hTnotin : ∀ q ∈ rest, q.1 ≠ T := by
        intro q hq hqT
        have hx : q.1 ∈ rest.map Prod.fst := List.mem_map_of_mem Prod.fst hq
        rw [hqT] at hx
        exact hnd2.1 hx
      rw [outerfold_dget?_ne rest _ hTnotin, innerfold_dget?_self,
        if_neg (by simpa [List.isEmpty_iff] using hne), hnone]
      rfl
    · have hpT : p.1 ≠ T := by
        intro hpt
        have hx : T ∈ rest.map Prod.fst := List.mem_map_of_mem Prod.fst hmem2
        rw [← hpt] at hx
        exact hnd2.1 hx
      apply ih _ hnd2.2 hmem2
      rw [innerfold_dget?_ne (Ne.symm hpT)]
      exact hnone

/- ### Distinct object-id bookkeeping in cases_by_object -/

/-- The ids of one object type referenced by an event:
the concatenation of `event.objects[T]` style entries. -/
def idsOfType (e : Event) (T : ObjType) : List ObjId :=
  e.objects.flatMap (fun p => if p.1 = T then p.2 else [])

/-- All ids of one object type referenced anywhere in the log, in order of
occurrence. -/
def idStream (events : List Event) (T : ObjType) : List ObjId :=
  events.flatMap (fun e => idsOfType e T)

/-- The object-id keys recorded for one type. -/
def inkeys (cbo : List (ObjType × List (ObjId × Trace))) (T : ObjType) :
    List ObjId :=
  ((dget? cbo T).getD []).map Prod.fst

theorem inkeys_cboAdd (cbo : List (ObjType × List (ObjId × Trace)))
    (ty : ObjType) (oid : ObjId) (e : Event) (T : ObjType) :
    inkeys (cboAdd cbo ty oid e) T =
      if T = ty then
        (if oid ∈ inkeys cbo ty then inkeys cbo ty else inkeys cbo ty ++ [oid])
      else inkeys cbo T := by
  unfold inkeys cboAdd
  by_cases h : T = ty
  · subst h
    rw [dget?_dmodify_self, if_pos rfl]
    simp only [Option.getD_some]
    rw [keys_dmodify]
  · rw [dget?_dmodify_ne h, if_neg h]

theorem inkeys_toFinset_cboAdd (cbo : List (ObjType × List (ObjId × Trace)))
    (ty : ObjType) (oid : ObjId) (e : Event) (T : ObjType) :
    (inkeys (cboAdd cbo ty oid e) T).toFinset =
      if T = ty then insert oid (inkeys cbo ty).toFinset
      else (inkeys cbo T).toFinset := by
  rw [inkeys_cboAdd]
  by_cases h : T = ty
  · rw [if_pos h, if_pos h]
    by_cases hm : oid ∈ inkeys cbo ty
    · rw [if_pos hm, Finset.insert_eq_self.2 (List.mem_toFinset.2 hm)]
    · rw [if_neg hm]
      ext x
      simp [or_comm]
  · rw [if_neg h, if_neg h]

theorem inkeys_nodup_cboAdd {cbo : List (ObjType × List (ObjId × Trace))}
    (h : ∀ T, (inkeys cbo T).Nodup) (ty : ObjType) (oid : ObjId) (e : Event) :
    ∀ T, (inkeys (cboAdd cbo ty oid e) T).Nodup := by
  intro T
  rw [inkeys_cboAdd]
  by_cases hT : T = ty
  · rw [if_pos hT]
    by_cases hm : oid ∈ inkeys cbo ty
    · rw [if_pos hm]
      exact h ty
    · rw [if_neg hm]
      simp [List.nodup_append, h ty, hm]
  · rw [if_neg hT]
    exact h T

theorem inkeys_toFinset_idfold (e : Event) (ty : ObjType) :
    ∀ (ids : List ObjId) (cbo : List (ObjType × List (ObjId × Trace)))
      (T : ObjType),
      (inkeys (ids.foldl (fun c oid => cboAdd c ty oid e) cbo) T).toFinset =
        if T = ty then (inkeys cbo ty).toFinset ∪ ids.toFinset
        else (inkeys cbo T).toFinset := by
  intro ids
  induction ids with
  | nil =>
    intro cbo T
    by_cases h : T = ty <;> simp [h]
  | cons x xs ih =>
    intro cbo T
    rw [List.foldl_cons, ih]
    by_cases h : T = ty
    · subst h
      rw [if_pos rfl, if_pos rfl, inkeys_toFinset_cboAdd, if_pos rfl]
      ext y
      simp [or_comm, or_assoc, or_left_comm]
    · rw [if_neg h, if_neg h, inkeys_toFinset_cboAdd, if_neg h]

theorem inkeys_toFinset_addEvent (cbo : List (ObjType × List (ObjId × Trace)))
    (e : Event) (T : ObjType) :
    (inkeys (addEvent cbo e) T).toFinset =
      (inkeys cbo T).toFinset ∪ (idsOfType e T).toFinset := by
  unfold addEvent idsOfType
  suffices H : ∀ (pairs : List (ObjType × List ObjId))
      (cbo : List (ObjType × List (ObjId × Trace))),
      (inkeys (pairs.foldl
        (fun c p => p.2.foldl (fun c oid => cboAdd c p.1 oid e) c) cbo)
          T).toFinset =
        (inkeys cbo T).toFinset ∪
          (pairs.flatMap (fun p => if p.1 = T then p.2 else [])).toFinset by
    exact H e.objects cbo
  intro pairs
  induction pairs with
  | nil =>
    intro cbo
    simp
  | cons p ps ih =>
    intro cbo
    rw [List.foldl_cons, ih, inkeys_toFinset_idfold]
    by_cases hp : p.1 = T
    · rw [if_pos hp.symm, List.flatMap_cons, if_pos hp]
      ext x
      simp [hp, or_comm, or_assoc, or_left_comm]
    · rw [if_neg (fun hh => hp hh.symm), List.flatMap_cons, if_neg hp]
      simp

theorem inkeys_toFinset_buildCBO (evs : List Event) (T : ObjType) :
    (inkeys (buildCBO evs) T).toFinset = (idStream evs T).toFinset := by
  unfold buildCBO idStream
  suffices H : ∀ (l : List Event) (cbo : List (ObjType × List (ObjId × Trace))),
      (inkeys (l.foldl addEvent cbo) T).toFinset =
        (inkeys cbo T).toFinset ∪
          (l.flatMap (fun e => idsOfType e T)).toFinset by
    rw [H evs []]
    simp [inkeys, dget?]
  intro l
  induction l with
  | nil =>
    intro cbo
    simp
  | cons e es ih =>
    intro cbo
    rw [List.foldl_cons, ih, inkeys_toFinset_addEvent, List.flatMap_cons]
    ext x
    simp [or_assoc]

/-- All per-type key lists of a `cases_by_object` map are duplicate-free. -/
def InkeysNodup (cbo : List (ObjType × List (ObjId × Trace))) : Prop :=
  ∀ T, (inkeys cbo T).Nodup

/-- The object-type keys of a `cases_by_object` map are duplicate-free. -/
def OuterNodup (cbo : List (ObjType × List (ObjId × Trace))) : Prop :=
  (cbo.map Prod.fst).Nodup

/-- Every object type present in a `cases_by_object` map has at least one
object instance. -/
def InnerNeNil (cbo : List (ObjType × List (ObjId × Trace))) : Prop :=
  ∀ p ∈ cbo, p.2 ≠ []

theorem inkeys_nodup_buildCBO (evs : List Event) :
    InkeysNodup (buildCBO evs) := by
  unfold buildCBO
  have hstep : ∀ acc e, InkeysNodup acc → InkeysNodup (addEvent acc e) := by
    intro acc e hacc
    unfold addEvent
    refine foldl_preserves _ _ (fun acc2 p _ hacc2 => ?_) hacc
    refine foldl_preserves _ _ (fun acc3 oid _ hacc3 => ?_) hacc2
    exact inkeys_nodup_cboAdd hacc3 p.1 oid e
  refine foldl_preserves _ _ (fun acc e _ hacc => hstep acc e hacc) ?_
  intro T
  simp [inkeys, dget?]

theorem outer_nodup_buildCBO (evs : List Event) :
    OuterNodup (buildCBO evs) := by
  unfold buildCBO
  have hstep : ∀ acc e, OuterNodup acc → OuterNodup (addEvent acc e) := by
    intro acc e hacc
    unfold addEvent
    refine foldl_preserves _ _ (fun acc2 p _ hacc2 => ?_) hacc
    refine foldl_preserves _ _ (fun acc3 oid _ hacc3 => ?_) hacc2
    exact nodup_keys_dmodify hacc3 _ _ _
  refine foldl_preserves _ _ (fun acc e _ hacc => hstep acc e hacc) ?_
  unfold OuterNodup
  simp

theorem inner_ne_nil_buildCBO (evs : List Event) :
    InnerNeNil (buildCBO evs) := by
  unfold buildCBO
  have hstep : ∀ acc e, InnerNeNil acc → InnerNeNil (addEvent acc e) := by
    intro acc e hacc
    unfold addEvent
    refine foldl_preserves _ _ (fun acc2 q _ hacc2 => ?_) hacc
    refine foldl_preserves _ _ (fun acc3 oid _ hacc3 => ?_) hacc2
    intro p hp
    rcases mem_dmodify hp with hold | ⟨_, hval⟩
    · exact hacc3 p hold
    · rw [hval]
      exact dmodify_ne_nil _ _ _ _
  refine foldl_preserves _ _ (fun acc e _ hacc => hstep acc e hacc) ?_
  intro p hp
  simp at hp

/-- Claim C2: for every log and every object type present after reload,
the sum of the variant counts of that type is at most the number of
distinct object ids of that type seen in the log, with equality exactly
when no two instances of the type share both an identical activity
sequence (trace hash) and identical full case content (case hash). -/
theorem sum_counts_le_distinct_instances (evs : List Event) (T : ObjType)
    (inner : List (ObjId × Trace))
    (hin : dget? (Cases.reload evs).cases_by_object T = some inner) :
    ((((dget? (Cases.reload evs).variants T).getD []).map (·.count)).sum
        ≤ (idStream evs T).dedup.length) ∧
      (((((dget? (Cases.reload evs).variants T).getD []).map (·.count)).sum
          = (idStream evs T).dedup.length) ↔
        (inner.map Prod.snd).Pairwise (fun t1 t2 =>
          ¬(get_trace_hash t1 = get_trace_hash t2 ∧
            get_case_hash t1 = get_case_hash t2))) := by
  have hin' : dget? (buildCBO evs) T = some inner := hin
  have hmem : (T, inner) ∈ buildCBO evs := dget?_mem hin'
  have hne : inner ≠ [] := inner_ne_nil_buildCBO evs (T, inner) hmem
  have hvc : dget? (buildVC (buildCBO evs)) T =
      some (groupTraces (inner.map Prod.snd)) :=
    dget?_buildVC_of_mem (outer_nodup_buildCBO evs) hmem hne
  have hvars : dget? (Cases.reload evs).variants T =
      some (mkVariants (groupTraces (inner.map Prod.snd))) := by
    show dget? (buildVariants (buildVC (buildCBO evs))) T = _
    unfold buildVariants
    rw [dget?_map_snd, hvc]
    rfl
  rw [hvars]
  simp only [Option.getD_some]
  set trs := inner.map Prod.snd with htrs
  have hcounts : ((mkVariants (groupTraces trs)).map (·.count)).sum =
      sumSizes (groupTraces trs) := by
    simp only [mkVariants, List.map_map]
    rfl
  have hsum : sumSizes (groupTraces trs) =
      (trs.map get_case_hash).dedup.length := sumSizes_groupTraces trs
  have hlen : (idStream evs T).dedup.length = inner.length := by
    have h1 : (inkeys (buildCBO evs) T).toFinset = (idStream evs T).toFinset :=
      inkeys_toFinset_buildCBO evs T
    have h2 : (inkeys (buildCBO evs) T).Nodup := inkeys_nodup_buildCBO evs T
    have h3 : inkeys (buildCBO evs) T = inner.map Prod.fst := by
      unfold inkeys
      rw [hin']
      rfl
    calc (idStream evs T).dedup.length
        = (idStream evs T).toFinset.card := (List.card_toFinset _).symm
      _ = (inkeys (buildCBO evs) T).toFinset.card := by rw [h1]
      _ = (inkeys (buildCBO evs) T).length := List.toFinset_card_of_nodup h2
      _ = inner.length := by rw [h3, List.length_map]
  have htrslen : trs.length = inner.length := List.length_map _ _
  have hinlen : inner.length = (trs.map get_case_hash).length := by
    rw [List.length_map]
    exact htrslen.symm
  constructor
  · rw [hcounts, hsum, hlen]
    calc (trs.map get_case_hash).dedup.length
        ≤ (trs.map get_case_hash).length :=
          (List.dedup_sublist _).length_le
      _ = trs.length := List.length_map _ _
      _ = inner.length := htrslen
  · rw [hcounts, hsum, hlen, hinlen]
    have hiff1 : ((trs.map get_case_hash).dedup.length =
        (trs.map get_case_hash).length) ↔ (trs.map get_case_hash).Nodup := by
      constructor
      · intro h
        rw [← List.dedup_eq_self]
        exact (List.dedup_sublist _).eq_of_length h
      · intro h
        rw [List.dedup_eq_self.2 h]
    have hiff2 : (trs.map get_case_hash).Nodup ↔
        trs.Pairwise (fun t1 t2 =>
          ¬(get_trace_hash t1 = get_trace_hash t2 ∧
            get_case_hash t1 = get_case_hash t2)) := by
      rw [List.Nodup, List.pairwise_map]
      constructor
      · exact fun h => h.imp (fun hne hconj => hne hconj.2)
      · exact fun h =>
          h.imp (fun hn hck => hn ⟨trace_hash_of_case_hash hck, hck⟩)
    exact hiff1.trans hiff2

/-- Witness for C2 at the demonstration log: both instances of `order`
share shape and content, so the count sum 1 is strictly below the 2
distinct ids and the pairwise-distinctness condition fails. -/
theorem sum_counts_le_distinct_instances_witness :
    ((((dget? (Cases.reload demoLog).variants "order").getD []).map
        (·.count)).sum ≤ (idStream demoLog "order").dedup.length) ∧
      (((((dget? (Cases.reload demoLog).variants "order").getD []).map
          (·.count)).sum = (idStream demoLog "order").dedup.length) ↔
        (([("o1", [demoE]), ("o2", [demoE])] :
            List (ObjId × Trace)).map Prod.snd).Pairwise (fun t1 t2 =>
          ¬(get_trace_hash t1 = get_trace_hash t2 ∧
            get_case_hash t1 = get_case_hash t2))) :=
  sum_counts_le_distinct_instances demoLog "order"
    [("o1", [demoE]), ("o2", [demoE])] (by decide)

end App
